import Mathlib

/-!
Verification of the GenCoG/typefuzz constraint-specification core against its
natural-language specification.

The development shallowly embeds:
  * the Python-style list subscription used by the expression evaluator,
  * the symbolic-expression evaluation of the operator constraint specs
    found in `typegraph/op/ew.py` (broadcast add) and
    `typegraph/op/trans.py` (concatenate, split),
  * the structural type system of `typegraph/ty.py`,
  * the reduction driver of `reduce_case.py` and the generation driver of
    `typefuzz_div.py`.

Fallible evaluation (a Python expression that may raise) is embedded as
`Option`-valued computation: `none` means the evaluation raises.
-/

namespace GenCoG

/-- Python list subscription as performed by the expression evaluator on an
evaluated sequence: a negative index counts from the end of the list
(`xs[-1]` is the last element), and an access that is still out of range
raises `IndexError`, embedded here as `none`. -/
def pyGet (xs : List Int) (i : Int) : Option Int :=
  let j := if i < 0 then i + xs.length else i
  if 0 ≤ j then xs.get? j.toNat else none

/-- Left-to-right evaluation of a sequence of fallible element computations:
the first raised error aborts the whole evaluation. This is the evaluation
order required for `List`-typed expressions: resolve the length first, then
the element bodies left to right, with zero-based indices. -/
def optMap {α β : Type} (f : α → Option β) : List α → Option (List β)
  | [] => some []
  | a :: l =>
    match f a with
    | none => none
    | some b =>
      match optMap f l with
      | none => none
      | some bs => some (b :: bs)

/-- Evaluation of a `ForAll` expression: the boolean body is evaluated at
every index of the (already evaluated) range; the quantifier is true iff the
body is true at every index, and evaluation fails if the body fails at some
index. -/
def optForAll {α : Type} (f : α → Option Bool) (l : List α) : Option Bool :=
  (optMap f l).map fun bs => bs.all id

/-- The broadcast-compatibility `extra` constraint of `_create_bcast`
(`typegraph/op/ew.py`), evaluated on the two concrete input shapes:
`ForAll(Range(end=m.min(n)), fun i => Or(IN[0].shape[m - i] == IN[1].shape[n - i],
IN[0].shape[m - i] == 1, IN[1].shape[n - i] == 1))`
where `m`, `n` are the two input ranks. The subscripts are exactly the ones
written in the source: `m - i` and `n - i`. -/
def bcastCompatCheck (s1 s2 : List Int) : Option Bool :=
  let m := s1.length
  let n := s2.length
  optForAll (fun (i : Nat) =>
    (pyGet s1 ((m : Int) - (i : Int))).bind fun d1 =>
      (pyGet s2 ((n : Int) - (i : Int))).map fun d2 =>
        (d1 == d2 || d1 == 1 || d2 == 1))
    (List.range (min m n))

/-- Modelled from the spec: NumPy-style broadcast compatibility — two shapes
are compatible along aligned trailing dimensions iff, for each aligned pair,
the sizes are equal or one of them is 1. The aligned trailing pairs of shapes
of ranks `m` and `n` are `(s1[m - 1 - i], s2[n - 1 - i])` for
`i ∈ [0, min m n)`. -/
def specBcastCompat (s1 s2 : List Int) : Bool :=
  let m := s1.length
  let n := s2.length
  (List.range (min m n)).all fun i =>
    let d1 := s1.getD (m - 1 - i) 0
    let d2 := s2.getD (n - 1 - i) 0
    d1 == d2 || d1 == 1 || d2 == 1

theorem pyGet_ofNat (xs : List Int) (k : Nat) : pyGet xs (k : Int) = xs.get? k := by
  have h0 : ¬((k : Int) < 0) := by omega
  unfold pyGet
  simp [h0]

theorem optMap_none_of_head {α β : Type} (f : α → Option β) (a : α) (l : List α)
    (h : f a = none) : optMap f (a :: l) = none := by
  unfold optMap
  rw [h]

/-- Claim C1: the broadcast-compatibility check of the broadcast `add`
operator, as written in `ew.py`, subscripts `IN[0].shape[m - i]` for
`i ∈ [0, min(m, n))`; at `i = 0` this reads index `m` of the length-`m` first
shape, which is out of range. Consequently the check fails to evaluate (and
so the candidate is rejected) for every pair of inputs whose ranks are both
at least 1, including spec-compatible ones; the intended aligned trailing
pair at distance `min(m, n)` from the end is never inspected. -/
theorem bcast_compat_check_never_evaluates (s1 s2 : List Int)
    (h1 : s1 ≠ []) (h2 : s2 ≠ []) : bcastCompatCheck s1 s2 = none := by
  have hm : 1 ≤ s1.length := List.length_pos.mpr h1
  have hn : 1 ≤ s2.length := List.length_pos.mpr h2
  have hmin : 1 ≤ min s1.length s2.length := le_min hm hn
  obtain ⟨k, hk⟩ : ∃ k, min s1.length s2.length = k + 1 :=
    ⟨min s1.length s2.length - 1, by omega⟩
  have hfail : pyGet s1 ((s1.length : Nat) : Int) = none := by
    rw [pyGet_ofNat]
    exact List.get?_eq_none.mpr (le_refl _)
  unfold bcastCompatCheck optForAll
  dsimp only
  rw [hk, List.range_succ_eq_map, optMap_none_of_head]
  · rfl
  · simp [hfail]

/-- Witness for claim C1: at the concrete rank-1 inputs of shapes `[5]` and
`[5]` — which the spec's broadcast rule accepts — the constraint written in
the code fails to evaluate. -/
theorem bcast_compat_check_witness :
    bcastCompatCheck [5] [5] = none ∧ specBcastCompat [5] [5] = true :=
  ⟨bcast_compat_check_never_evaluates [5] [5] (by decide) (by decide), by decide⟩

/-! ### The `split` operator (`typegraph/op/trans.py`, `_create_split`) -/

/-- The declared domain of the length of the `indices_or_sections` attribute
of `_create_split`: `Range(begin=1, end=IN[0].shape[a('axis')])`, a half-open
interval, so the length lies in `[1, shape[axis])`. -/
def splitIndLenDomain (sz : Int) (len : Nat) : Prop :=
  1 ≤ len ∧ (len : Int) < sz

instance (sz : Int) (len : Nat) : Decidable (splitIndLenDomain sz len) :=
  inferInstanceAs (Decidable (_ ∧ _))

/-- Evaluation of the `extra` constraints of `_create_split` on concrete
bindings: `ind[0] > 0`, `ForAll(Range(1, Len(ind)), fun i => ind[i-1] < ind[i])`,
and `ind[-1] < IN[0].shape[a('axis')]`, in that order, with Python
subscription (so `ind[-1]` is negative indexing). -/
def splitExtra (shape : List Int) (axis : Nat) (ind : List Int) : Option Bool :=
  (pyGet ind 0).bind fun i0 =>
    (optForAll (fun (i : Nat) =>
        (pyGet ind ((i : Int) - 1)).bind fun a =>
          (pyGet ind (i : Int)).map fun b => decide (a < b))
      (List.range' 1 (ind.length - 1))).bind fun mono =>
      (pyGet ind (-1)).bind fun last =>
        (pyGet shape (axis : Int)).map fun sz =>
          decide (0 < i0) && mono && decide (last < sz)

/-- `out_num` of `_create_split`: `Len(ind) + 1`. -/
def splitOutNum (ind : List Int) : Nat := ind.length + 1

/-- Evaluation of `out_shapes` of `_create_split`:
`List(OUT.num, fun i => List(IN[0].rank, fun j => Cond(j == axis,
Cond(i == 0, ind[0], Cond(i == Len(ind), IN[0].shape[j] - ind[-1],
ind[i] - ind[i-1])), IN[0].shape[j])))`. -/
def splitOutShapes (shape : List Int) (axis : Nat) (ind : List Int) :
    Option (List (List Int)) :=
  optMap (fun (i : Nat) =>
      optMap (fun (j : Nat) =>
          if j = axis then
            if i = 0 then pyGet ind 0
            else if i = ind.length then
              (pyGet shape (j : Int)).bind fun sj =>
                (pyGet ind (-1)).map fun last => sj - last
            else
              (pyGet ind (i : Int)).bind fun a =>
                (pyGet ind ((i : Int) - 1)).map fun b => a - b
          else pyGet shape (j : Int))
        (List.range shape.length))
    (List.range (splitOutNum ind))

/-! ### Helper lemmas about the evaluator -/

theorem pyGet_nat (xs : List Int) (k : Nat) (h : k < xs.length) :
    pyGet xs (k : Int) = some (xs.getD k 0) := by
  rw [pyGet_ofNat]
  rw [List.getD_eq_get? ]
  cases hx : xs.get? k with
  | none =>
    rw [List.get?_eq_none] at hx
    omega
  | some v => rfl

theorem pyGet_neg_one (xs : List Int) (h : xs ≠ []) :
    pyGet xs (-1) = some (xs.getD (xs.length - 1) 0) := by
  have hl : 1 ≤ xs.length := List.length_pos.mpr h
  have h1 : ((-1 : Int) < 0) := by decide
  have hnn : (0 : Int) ≤ -1 + xs.length := by omega
  have hkey : ((-1 : Int) + (xs.length : Int)).toNat = xs.length - 1 := by omega
  unfold pyGet
  dsimp only
  rw [if_pos h1, if_pos hnn, hkey, List.getD_eq_get? ]
  cases hx : xs.get? (xs.length - 1) with
  | none =>
    rw [List.get?_eq_none] at hx
    omega
  | some v => rfl

theorem optForAll_eq_some_true {α : Type} {f : α → Option Bool} {l : List α}
    (h : optForAll f l = some true) : ∀ a ∈ l, f a = some true := by
  induction l with
  | nil => intro a ha; cases ha
  | cons x xs ih =>
    intro a ha
    obtain ⟨b, hb⟩ : ∃ b, f x = some b := by
      cases hfx : f x with
      | none => simp [optForAll, optMap, hfx] at h
      | some b => exact ⟨b, rfl⟩
    obtain ⟨bs, hbs⟩ : ∃ bs, optMap f xs = some bs := by
      cases hrest : optMap f xs with
      | none => simp [optForAll, optMap, hb, hrest] at h
      | some bs => exact ⟨bs, rfl⟩
    have hall : (b :: bs).all id = true := by
      have hform : optForAll f (x :: xs) = some ((b :: bs).all id) := by
        simp [optForAll, optMap, hb, hbs]
      rw [hform] at h
      exact (Option.some.inj h)
    simp only [List.all_cons, Bool.and_eq_true, id] at hall
    rcases List.mem_cons.mp ha with rfl | hmem
    · rw [hb, hall.1]
    · exact ih (by simp [optForAll, hbs, hall.2]) a hmem

theorem optMap_congr_some {α β : Type} {f : α → Option β} {g : α → β}
    {l : List α} (h : ∀ a ∈ l, f a = some (g a)) :
    optMap f l = some (l.map g) := by
  induction l with
  | nil => rfl
  | cons x xs ih =>
    unfold optMap
    rw [h x (List.mem_cons_self x xs), ih fun a ha => h a (List.mem_cons_of_mem x ha)]
    rfl

theorem sum_map_range_sub (h : Nat → Int) (n : Nat) :
    ((List.range n).map fun i => h (i + 1) - h i).sum = h n - h 0 := by
  induction n with
  | zero => simp
  | succ n ih =>
    rw [List.range_succ, List.map_append, List.sum_append, ih]
    have hs : ([n].map fun i => h (i + 1) - h i).sum = h (n + 1) - h n := by simp
    rw [hs]
    ring

theorem getD_map_range {β : Type} (f : Nat → β) (n k : Nat) (d : β) (h : k < n) :
    ((List.range n).map f).getD k d = f k := by
  rw [List.getD_eq_get? , List.get?_map, List.get?_range h]
  rfl

theorem get?_eq_some_getD {α : Type} (xs : List α) (d : α) (k : Nat)
    (h : k < xs.length) : xs.get? k = some (xs.getD k d) := by
  rw [List.getD_eq_get? ]
  cases hx : xs.get? k with
  | none =>
    rw [List.get?_eq_none] at hx
    omega
  | some v => rfl

theorem pyGet_zero (xs : List Int) (h : xs ≠ []) :
    pyGet xs 0 = some (xs.getD 0 0) := by
  have hl : 0 < xs.length := List.length_pos.mpr h
  have := pyGet_nat xs 0 hl
  simpa using this

/-- Prefix-boundary function used to telescope the output sizes of `split`
along the split axis: `splitTele ind sz t` is the left boundary of the
`t`-th section (0, then the split indices, then the axis size). -/
def splitTele (ind : List Int) (sz : Int) (t : Nat) : Int :=
  if t = 0 then 0 else if t ≤ ind.length then ind.getD (t - 1) 0 else sz

/-- Claim C2: for every valid instance of the `split` operator — a binding
of the input shape, axis and sampled `indices_or_sections` list that lies in
the declared attribute domains and satisfies the `extra` constraints —
`out_num` equals `n + 1` for `n` split points, the output sizes along the
split axis evaluate successfully and telescope so that their sum equals the
input's size along that axis, the split indices are strictly increasing, and
every split index lies strictly between 0 and the input's size along the
split axis. -/
theorem split_invariant (shape : List Int) (axis : Nat) (ind : List Int)
    (hax : axis < shape.length)
    (hdom : splitIndLenDomain (shape.getD axis 0) ind.length)
    (hextra : splitExtra shape axis ind = some true) :
    splitOutNum ind = ind.length + 1 ∧
    (∃ outs, splitOutShapes shape axis ind = some outs ∧
      outs.length = ind.length + 1 ∧
      (outs.map fun s => s.getD axis 0).sum = shape.getD axis 0) ∧
    (∀ i, i + 1 < ind.length → ind.getD i 0 < ind.getD (i + 1) 0) ∧
    (∀ x ∈ ind, 0 < x ∧ x < shape.getD axis 0) := by
  have hlen : 1 ≤ ind.length := hdom.1
  have hne : ind ≠ [] := List.length_pos.mp (by omega)
  have e0 : pyGet ind 0 = some (ind.getD 0 0) := pyGet_zero ind hne
  have elast : pyGet ind (-1) = some (ind.getD (ind.length - 1) 0) :=
    pyGet_neg_one ind hne
  have eax : pyGet shape (axis : Int) = some (shape.getD axis 0) :=
    pyGet_nat shape axis hax
  -- the ForAll component of the extra constraints evaluates successfully
  have hoptm : optMap (fun (i : Nat) =>
      (pyGet ind ((i : Int) - 1)).bind fun a =>
        (pyGet ind (i : Int)).map fun b => decide (a < b))
      (List.range' 1 (ind.length - 1)) =
      some ((List.range' 1 (ind.length - 1)).map fun i =>
        decide (ind.getD (i - 1) 0 < ind.getD i 0)) := by
    apply optMap_congr_some
    intro i hi
    have hmem : 1 ≤ i ∧ i < 1 + (ind.length - 1) := List.mem_range'_1.mp hi
    have hi1 : 1 ≤ i := hmem.1
    have hilt : i < ind.length := by omega
    have hcast : ((i : Int) - 1) = ((i - 1 : Nat) : Int) := by omega
    rw [hcast, pyGet_nat ind (i - 1) (by omega), pyGet_nat ind i hilt]
    rfl
  have efa : optForAll (fun (i : Nat) =>
      (pyGet ind ((i : Int) - 1)).bind fun a =>
        (pyGet ind (i : Int)).map fun b => decide (a < b))
      (List.range' 1 (ind.length - 1)) =
      some (((List.range' 1 (ind.length - 1)).map fun i =>
        decide (ind.getD (i - 1) 0 < ind.getD i 0)).all id) := by
    unfold optForAll
    rw [hoptm]
    rfl
  unfold splitExtra at hextra
  rw [e0, efa, elast, eax] at hextra
  simp only [Option.some_bind, Option.map_some'] at hextra
  have hbools := Option.some.inj hextra
  simp only [Bool.and_eq_true, decide_eq_true_eq] at hbools
  obtain ⟨⟨h0pos, hallmono⟩, hlast⟩ := hbools
  -- adjacent strict monotonicity from the ForAll constraint
  have hadj : ∀ i, 1 ≤ i → i < ind.length → ind.getD (i - 1) 0 < ind.getD i 0 := by
    intro i h1 h2
    have hmem : i ∈ List.range' 1 (ind.length - 1) := by
      rw [List.mem_range'_1]
      omega
    have := List.all_eq_true.mp hallmono _ (List.mem_map_of_mem _ hmem)
    simpa using this
  -- monotonicity between arbitrary indices
  have hmono_le : ∀ i j, i ≤ j → j < ind.length →
      ind.getD i 0 ≤ ind.getD j 0 := by
    intro i j hij
    induction j, hij using Nat.le_induction with
    | base => intro _; exact le_refl _
    | succ j hij ih =>
      intro hj
      have h1 : ind.getD i 0 ≤ ind.getD j 0 := ih (by omega)
      have h2 : ind.getD j 0 < ind.getD (j + 1) 0 := by
        have := hadj (j + 1) (by omega) hj
        simpa using this
      omega
  have hposk : ∀ k, k < ind.length → 0 < ind.getD k 0 := by
    intro k hk
    have := hmono_le 0 k (Nat.zero_le k) hk
    omega
  have hupk : ∀ k, k < ind.length → ind.getD k 0 < shape.getD axis 0 := by
    intro k hk
    have := hmono_le k (ind.length - 1) (by omega) (by omega)
    omega
  refine ⟨rfl, ?_, ?_, ?_⟩
  · -- output shapes evaluate and telescope
    have houts : splitOutShapes shape axis ind =
        some ((List.range (ind.length + 1)).map fun i =>
          (List.range shape.length).map fun j =>
            if j = axis then
              (if i = 0 then ind.getD 0 0
               else if i = ind.length then
                 shape.getD axis 0 - ind.getD (ind.length - 1) 0
               else ind.getD i 0 - ind.getD (i - 1) 0)
            else shape.getD j 0) := by
      unfold splitOutShapes splitOutNum
      apply optMap_congr_some
      intro i hi
      apply optMap_congr_some
      intro j hj
      have hj' : j < shape.length := List.mem_range.mp hj
      by_cases hja : j = axis
      · subst hja
        rw [if_pos rfl, if_pos rfl]
        by_cases hi0 : i = 0
        · subst hi0
          rw [if_pos rfl, if_pos rfl, e0]
        · rw [if_neg hi0, if_neg hi0]
          by_cases hilen : i = ind.length
          · rw [if_pos hilen, if_pos hilen, eax, elast]
            rfl
          · rw [if_neg hilen, if_neg hilen]
            have hi' : i < ind.length + 1 := List.mem_range.mp hi
            have h1i : 1 ≤ i := by omega
            have hilt : i < ind.length := by omega
            have hcast : ((i : Int) - 1) = ((i - 1 : Nat) : Int) := by omega
            rw [hcast, pyGet_nat ind i hilt, pyGet_nat ind (i - 1) (by omega)]
            rfl
      · rw [if_neg hja, if_neg hja, pyGet_nat shape j hj']
    refine ⟨_, houts, by simp, ?_⟩
    -- project the axis entry of every output shape
    have hax' : ∀ i, ((List.range shape.length).map fun j =>
        if j = axis then
          (if i = 0 then ind.getD 0 0
           else if i = ind.length then
             shape.getD axis 0 - ind.getD (ind.length - 1) 0
           else ind.getD i 0 - ind.getD (i - 1) 0)
        else shape.getD j 0).getD axis 0 =
        (if i = 0 then ind.getD 0 0
         else if i = ind.length then
           shape.getD axis 0 - ind.getD (ind.length - 1) 0
         else ind.getD i 0 - ind.getD (i - 1) 0) := by
      intro i
      rw [getD_map_range _ _ _ _ hax]
      simp
    rw [List.map_map]
    have hcongr : (List.range (ind.length + 1)).map
        ((fun s : List Int => s.getD axis 0) ∘ fun i =>
          (List.range shape.length).map fun j =>
            if j = axis then
              (if i = 0 then ind.getD 0 0
               else if i = ind.length then
                 shape.getD axis 0 - ind.getD (ind.length - 1) 0
               else ind.getD i 0 - ind.getD (i - 1) 0)
            else shape.getD j 0) =
        (List.range (ind.length + 1)).map fun i =>
          splitTele ind (shape.getD axis 0) (i + 1) -
            splitTele ind (shape.getD axis 0) i := by
      apply List.map_congr_left
      intro i hi
      have hi' : i < ind.length + 1 := List.mem_range.mp hi
      simp only [Function.comp_apply, hax' i]
      by_cases hi0 : i = 0
      · subst hi0
        have h1 : ¬(1 = 0) := by omega
        have h2 : 1 ≤ ind.length := hlen
        simp [splitTele, h1, h2]
      · by_cases hilen : i = ind.length
        · subst hilen
          have h1 : ¬(ind.length + 1 = 0) := by omega
          have h2 : ¬(ind.length + 1 ≤ ind.length) := by omega
          simp [splitTele, hi0, h1, h2, hlen]
        · have hilt : i < ind.length := by omega
          have h1 : ¬(i + 1 = 0) := by omega
          have h2 : i + 1 ≤ ind.length := by omega
          have h3 : i ≤ ind.length := by omega
          simp [splitTele, hi0, hilen, h1, h2, h3]
    rw [hcongr, sum_map_range_sub]
    have hA : ¬(ind.length + 1 ≤ ind.length) := by omega
    have hB : ¬(ind.length + 1 = 0) := by omega
    simp [splitTele, hA, hB]
  · intro i hi
    have := hadj (i + 1) (by omega) hi
    simpa using this
  · intro x hx
    obtain ⟨⟨k, hk⟩, rfl⟩ := List.mem_iff_get.mp hx
    have hgd : ind.getD k 0 = ind.get ⟨k, hk⟩ := by
      rw [List.getD_eq_get? , List.get?_eq_get hk]
      rfl
    rw [← hgd]
    exact ⟨hposk k hk, hupk k hk⟩

/-- Witness for claim C2: the concrete valid split instance with input shape
`[5]`, `axis = 0` and split indices `[2]` satisfies the invariant. -/
theorem split_invariant_witness :
    splitOutNum [2] = 2 ∧
    (∃ outs, splitOutShapes [5] 0 [2] = some outs ∧
      outs.length = 2 ∧ (outs.map fun s => s.getD 0 0).sum = 5) ∧
    (∀ i, i + 1 < List.length [(2 : Int)] →
      List.getD [(2 : Int)] i 0 < List.getD [(2 : Int)] (i + 1) 0) ∧
    (∀ x ∈ [(2 : Int)], 0 < x ∧ x < 5) :=
  split_invariant [5] 0 [2] (by decide) (by decide) (by decide)

/-- Claim C9: because the declared length domain of `indices_or_sections`
begins at 1, every sampled indices list is non-empty, so the accesses
`ind[0]` and `ind[-1]` succeed, and `ind[-1]` denotes the last split index
via negative indexing. -/
theorem split_ind_accesses_in_bounds (sz : Int) (ind : List Int)
    (hdom : splitIndLenDomain sz ind.length) :
    ind ≠ [] ∧ (pyGet ind 0).isSome ∧ pyGet ind (-1) = ind.getLast? := by
  have hlen : 1 ≤ ind.length := hdom.1
  have hne : ind ≠ [] := List.length_pos.mp (by omega)
  refine ⟨hne, ?_, ?_⟩
  · rw [pyGet_zero ind hne]
    rfl
  · rw [pyGet_neg_one ind hne, List.getLast?_eq_get? ,
      get?_eq_some_getD ind 0 (ind.length - 1) (by omega)]

/-- Witness for claim C9: the indices list `[2]`, whose length 1 lies in the
declared domain `[1, 5)`, is non-empty and both accesses succeed. -/
theorem split_ind_accesses_witness :
    [(2 : Int)] ≠ [] ∧ (pyGet [2] 0).isSome ∧
      pyGet [2] (-1) = List.getLast? [(2 : Int)] :=
  split_ind_accesses_in_bounds 5 [2] (by decide)

/-! ### The `concatenate` operator (`typegraph/op/trans.py`, `_concat`) -/

/-- Evaluation of `IN[i].shape[j]`: look up the `i`-th input descriptor in
the environment, then subscript its shape. -/
def inShapeGet (ins : List (List Int)) (i j : Nat) : Option Int :=
  match ins.get? i with
  | none => none
  | some s => pyGet s (j : Int)

/-- Evaluation of the single `out_shapes` formula of `_concat`:
`List(IN[0].rank, fun j => Cond(j == a('axis'),
ReduceIndex(Range(end=IN.num), ArithOp.ADD, 0, fun i => IN[i].shape[j]),
IN[0].shape[j]))`; `ReduceIndex` left-folds its associative operator over the
range starting from the initial value 0. -/
def concatOutShape (ins : List (List Int)) (axis : Nat) : Option (List Int) :=
  match ins.head? with
  | none => none
  | some s0 =>
    optMap (fun (j : Nat) =>
        if j = axis then
          (optMap (fun (i : Nat) => inShapeGet ins i j)
            (List.range ins.length)).map fun vs => vs.foldl (· + ·) 0
        else pyGet s0 (j : Int))
      (List.range s0.length)

/-- Evaluation of `out_ranks = [IN[0].rank]` of `_concat`. -/
def concatOutRank (ins : List (List Int)) : Option Nat :=
  ins.head?.map List.length

/-- Evaluation of `out_dtypes = [IN[0].dtype]` of `_concat`, on the list of
input dtypes (dtypes are abstract tags here). -/
def concatOutDType (dtypes : List Nat) : Option Nat :=
  dtypes.head?

theorem map_range_getD_eq_map {α β : Type} (l : List α) (d : α) (F : α → β) :
    (List.range l.length).map (fun i => F (l.getD i d)) = l.map F := by
  induction l with
  | nil => simp
  | cons x xs ih =>
    rw [List.length_cons, List.range_succ_eq_map, List.map_cons, List.map_map]
    have hcomp : (List.range xs.length).map
        ((fun i => F ((x :: xs).getD i d)) ∘ Nat.succ) =
        (List.range xs.length).map (fun i => F (xs.getD i d)) := by
      apply List.map_congr_left
      intro a _
      rfl
    rw [hcomp, ih]
    rfl

/-- Claim C3: every `concatenate` instance has a single output with
`IN[0]`'s rank and dtype, whose size along `axis` is the sum over all inputs
of their sizes along that axis, and whose other dimensions equal `IN[0]`'s;
in particular two rank-2 inputs of shapes `(3,4)` and `(3,5)` with `axis=1`
yield the single output shape `(3,9)`. -/
theorem concat_out_correct (s0 : List Int) (rest : List (List Int))
    (axis : Nat) (d0 : Nat) (drest : List Nat)
    (hax : axis < s0.length)
    (hranks : ∀ s ∈ rest, s.length = s0.length) :
    (∃ out, concatOutShape (s0 :: rest) axis = some out ∧
      out.length = s0.length ∧
      out.getD axis 0 = (((s0 :: rest)).map fun s => s.getD axis 0).sum ∧
      ∀ j, j < s0.length → j ≠ axis → out.getD j 0 = s0.getD j 0) ∧
    concatOutRank (s0 :: rest) = some s0.length ∧
    concatOutDType (d0 :: drest) = some d0 ∧
    concatOutShape [[3, 4], [3, 5]] 1 = some [3, 9] := by
  have hsome : ∀ j, j < s0.length → ∀ i, i < (s0 :: rest).length →
      inShapeGet (s0 :: rest) i j = some (((s0 :: rest).getD i []).getD j 0) := by
    intro j hj i hi
    unfold inShapeGet
    rw [get?_eq_some_getD (s0 :: rest) [] i hi]
    have hlen : ((s0 :: rest).getD i []).length = s0.length := by
      rcases i with _ | i
      · rfl
      · have hi' : i < rest.length := by simpa using hi
        have hmem : rest.getD i [] ∈ rest :=
          List.get?_mem (get?_eq_some_getD rest [] i hi')
        exact hranks _ hmem
    exact pyGet_nat _ j (by omega)
  have houter : concatOutShape (s0 :: rest) axis =
      some ((List.range s0.length).map fun j =>
        if j = axis then
          ((List.range (s0 :: rest).length).map fun i =>
            ((s0 :: rest).getD i []).getD j 0).foldl (· + ·) 0
        else s0.getD j 0) := by
    unfold concatOutShape
    simp only [List.head?_cons]
    apply optMap_congr_some
    intro j hj
    have hj' : j < s0.length := List.mem_range.mp hj
    by_cases hja : j = axis
    · rw [if_pos hja, if_pos hja]
      have hinner : optMap (fun (i : Nat) => inShapeGet (s0 :: rest) i j)
          (List.range (s0 :: rest).length) =
          some ((List.range (s0 :: rest).length).map fun i =>
            ((s0 :: rest).getD i []).getD j 0) := by
        apply optMap_congr_some
        intro i hi
        exact hsome j hj' i (List.mem_range.mp hi)
      rw [hinner]
      rfl
    · rw [if_neg hja, if_neg hja, pyGet_nat s0 j hj']
  refine ⟨⟨_, houter, by simp, ?_, ?_⟩, rfl, rfl, by decide⟩
  · rw [getD_map_range _ _ _ _ hax, if_pos rfl]
    rw [map_range_getD_eq_map (s0 :: rest) [] (fun s => s.getD axis 0)]
    exact (List.sum_eq_foldl).symm
  · intro j hj hne
    rw [getD_map_range _ _ _ _ hj, if_neg hne]

/-- Witness for claim C3: the concrete scenario of the spec, two rank-2
inputs of shapes `(3,4)` and `(3,5)` concatenated along `axis = 1`. -/
theorem concat_out_witness :
    (∃ out, concatOutShape [[3, 4], [3, 5]] 1 = some out ∧
      out.length = 2 ∧
      out.getD 1 0 = (([[3, 4], [3, 5]] : List (List Int)).map
        fun s => s.getD 1 0).sum ∧
      ∀ j, j < 2 → j ≠ 1 → out.getD j 0 = List.getD [(3 : Int), 4] j 0) ∧
    concatOutRank [[3, 4], [3, 5]] = some 2 ∧
    concatOutDType [7, 7] = some 7 ∧
    concatOutShape [[3, 4], [3, 5]] 1 = some [3, 9] :=
  concat_out_correct [3, 4] [[3, 5]] 1 7 [7] (by decide) (by decide)

/-- The list of `extra` boolean constraints declared by `_concat` is empty:
`extra=[]` in `typegraph/op/trans.py`. -/
def concatExtra : List (List (List Int) → Nat → Bool) := []

/-- Validation step of the generator (spec §4.4 step 4) applied to a
`concatenate` candidate: evaluate every `extra` boolean constraint of
`_concat` against the resolved input shapes and `axis` attribute. -/
def concatExtraValid (ins : List (List Int)) (axis : Nat) : Bool :=
  concatExtra.all fun c => c ins axis

/-- Modelled from the spec: the property that every input's non-axis
dimensions equal the corresponding dimensions of `IN[0]` (the property the
claim says is enforced by the extra constraints). -/
def specConcatNonAxisMatch (ins : List (List Int)) (axis : Nat) : Bool :=
  match ins.head? with
  | none => true
  | some s0 =>
    ins.all fun s =>
      decide (s.length = s0.length) &&
        (List.range s0.length).all fun j =>
          decide (j = axis) || decide (s.getD j 0 = s0.getD j 0)

/-- Counterexample for claim C4: the candidate with input shapes `(3,4)` and
`(2,5)` and `axis = 0` has mismatched non-axis dimensions, yet it passes the
evaluation of the operator's `extra` boolean constraints, because `_concat`
declares `extra=[]`; so this candidate does not "fail validation of the
operator's extra boolean constraints". -/
theorem concat_mismatch_passes_extra_check :
    concatExtraValid [[3, 4], [2, 5]] 0 = true ∧
      specConcatNonAxisMatch [[3, 4], [2, 5]] 0 = false := by
  constructor
  · rfl
  · decide

/-- Claim C4 (amended): the `concatenate` spec declares no `extra` boolean
constraints, so the extra-constraint validation step accepts every candidate,
including one with mismatched non-axis dimensions; the exclusion of such
candidates is not performed by the extra-constraint validation. -/
theorem concat_extra_check_accepts_all (ins : List (List Int)) (axis : Nat) :
    concatExtraValid ins axis = true := rfl

/-! ### The type system (`typegraph/ty.py`) -/

/-- Expression types: `Int | Float | Str | DType | Tuple(field types) |
List(element type)`, mirroring the `Type` class hierarchy of
`typegraph/ty.py`. -/
inductive Ty where
  | int
  | float
  | str
  | dtype
  | tuple (field_ty : List Ty)
  | list (elem_ty : Ty)

/-- The `TypeKind` RTTI tag of a type, with the `IntEnum` values assigned by
`auto()`: INT=1, FLOAT=2, STR=3, DTYPE=4, TUPLE=5, LIST=6. -/
def kindOf : Ty → Nat
  | .int => 1
  | .float => 2
  | .str => 3
  | .dtype => 4
  | .tuple _ => 5
  | .list _ => 6

mutual
/-- Structural equality of types, mirroring the `__eq__` dispatch of
`ty.py`: the primitive classes inherit `Type.__eq__`, which compares only
the `kind` tags; `Tuple.__eq__` first compares kinds (via `super().__eq__`),
then field counts, then fields pairwise (`zip` + `all`); `List.__eq__`
compares kinds and then element types. -/
def tyEq : Ty → Ty → Bool
  | .int, other => kindOf .int == kindOf other
  | .float, other => kindOf .float == kindOf other
  | .str, other => kindOf .str == kindOf other
  | .dtype, other => kindOf .dtype == kindOf other
  | .tuple fs, .tuple gs => decide (fs.length = gs.length) && tyEqFields fs gs
  | .tuple fs, other => kindOf (.tuple fs) == kindOf other
  | .list e, .list f => tyEq e f
  | .list e, other => kindOf (.list e) == kindOf other

/-- Pairwise comparison of tuple fields:
`all(map(lambda p: p[0] == p[1], zip(fs, gs)))` — `zip` truncates to the
shorter list, which is harmless because `Tuple.__eq__` has already compared
the lengths. -/
def tyEqFields : List Ty → List Ty → Bool
  | [], _ => true
  | _ :: _, [] => true
  | a :: as, b :: bs => tyEq a b && tyEqFields as bs
end

/-- Induction principle for `Ty` resolving the nested occurrence of
`List Ty` in the `tuple` constructor. -/
theorem ty_rec_aux (P : Ty → Prop) (hint : P .int) (hflt : P .float)
    (hstr : P .str) (hdt : P .dtype)
    (htup : ∀ fs, (∀ t ∈ fs, P t) → P (.tuple fs))
    (hlst : ∀ e, P e → P (.list e)) : ∀ t, P t := by
  have key : ∀ n, ∀ t : Ty, sizeOf t ≤ n → P t := by
    intro n
    induction n with
    | zero =>
      intro t ht
      exfalso
      cases t <;> simp at ht
    | succ n ih =>
      intro t ht
      cases t with
      | int => exact hint
      | float => exact hflt
      | str => exact hstr
      | dtype => exact hdt
      | tuple fs =>
        apply htup
        intro x hx
        apply ih
        have h1 : sizeOf x < sizeOf fs := List.sizeOf_lt_of_mem hx
        have h2 : sizeOf (Ty.tuple fs) = 1 + sizeOf fs := by simp
        omega
      | list e =>
        apply hlst
        apply ih
        have h2 : sizeOf (Ty.list e) = 1 + sizeOf e := by simp
        omega
  intro t
  exact key (sizeOf t) t (le_refl _)

theorem tyEqFields_iff : ∀ (fs gs : List Ty),
    (∀ t ∈ fs, ∀ u, tyEq t u = true ↔ t = u) →
    ((fs.length = gs.length ∧ tyEqFields fs gs = true) ↔ fs = gs) := by
  intro fs
  induction fs with
  | nil =>
    intro gs _
    cases gs <;> simp [tyEqFields]
  | cons x xs ih =>
    intro gs hmem
    cases gs with
    | nil => simp [tyEqFields]
    | cons y ys =>
      have hx := hmem x (List.mem_cons_self x xs) y
      have ihr := ih ys fun t ht u => hmem t (List.mem_cons_of_mem x ht) u
      constructor
      · rintro ⟨hlen, heq⟩
        simp only [tyEqFields, Bool.and_eq_true] at heq
        obtain ⟨hxy, hrest⟩ := heq
        have hxy' : x = y := hx.mp hxy
        have hxs : xs = ys := ihr.mp ⟨by simpa using hlen, hrest⟩
        rw [hxy', hxs]
      · intro h
        rw [List.cons.injEq] at h
        obtain ⟨rfl, rfl⟩ := h
        refine ⟨rfl, ?_⟩
        simp only [tyEqFields, Bool.and_eq_true]
        exact ⟨hx.mpr rfl, (ihr.mpr rfl).2⟩

theorem tyEq_iff (t1 : Ty) : ∀ t2, tyEq t1 t2 = true ↔ t1 = t2 := by
  refine ty_rec_aux (fun t => ∀ t2, tyEq t t2 = true ↔ t = t2)
    ?_ ?_ ?_ ?_ ?_ ?_ t1
  · intro t2; cases t2 <;> simp [tyEq, kindOf]
  · intro t2; cases t2 <;> simp [tyEq, kindOf]
  · intro t2; cases t2 <;> simp [tyEq, kindOf]
  · intro t2; cases t2 <;> simp [tyEq, kindOf]
  · intro fs hfs t2
    cases t2 with
    | tuple gs =>
      have := tyEqFields_iff fs gs hfs
      simp only [tyEq, Bool.and_eq_true, decide_eq_true_eq, Ty.tuple.injEq]
      rw [← this]
    | int => simp [tyEq, kindOf]
    | float => simp [tyEq, kindOf]
    | str => simp [tyEq, kindOf]
    | dtype => simp [tyEq, kindOf]
    | list e => simp [tyEq, kindOf]
  · intro e he t2
    cases t2 with
    | list f => simp [tyEq, he f, Ty.list.injEq]
    | int => simp [tyEq, kindOf]
    | float => simp [tyEq, kindOf]
    | str => simp [tyEq, kindOf]
    | dtype => simp [tyEq, kindOf]
    | tuple gs => simp [tyEq, kindOf]

/-- Claim C6: structural type equality is an equivalence relation —
reflexive, symmetric (stated as equality of the two comparison results) and
transitive — and purely structural: two types whose RTTI kinds (hence head
constructors) differ always compare unequal. -/
theorem tyEq_equivalence :
    (∀ t, tyEq t t = true) ∧
    (∀ t1 t2, tyEq t1 t2 = tyEq t2 t1) ∧
    (∀ t1 t2 t3, tyEq t1 t2 = true → tyEq t2 t3 = true → tyEq t1 t3 = true) ∧
    (∀ t1 t2, kindOf t1 ≠ kindOf t2 → tyEq t1 t2 = false) := by
  have hfalse : ∀ t1 t2, t1 ≠ t2 → tyEq t1 t2 = false := by
    intro t1 t2 hne
    cases hb : tyEq t1 t2 with
    | false => rfl
    | true => exact absurd ((tyEq_iff t1 t2).mp hb) hne
  refine ⟨?_, ?_, ?_, ?_⟩
  · intro t
    exact (tyEq_iff t t).mpr rfl
  · intro t1 t2
    by_cases h : t1 = t2
    · rw [h]
    · rw [hfalse t1 t2 h, hfalse t2 t1 (Ne.symm h)]
  · intro t1 t2 t3 h12 h23
    have e12 : t1 = t2 := (tyEq_iff t1 t2).mp h12
    have e23 : t2 = t3 := (tyEq_iff t2 t3).mp h23
    exact (tyEq_iff t1 t3).mpr (e12.trans e23)
  · intro t1 t2 hk
    exact hfalse t1 t2 fun h => hk (congrArg kindOf h)

/-- Witness for claim C6: reflexivity at a nested tuple type, transitivity
applied at concrete list types, and inequality of the distinct-constructor
pair `Int`/`Float`. -/
theorem tyEq_equivalence_witness :
    tyEq (.tuple [.int, .str]) (.tuple [.int, .str]) = true ∧
    tyEq (.list .int) (.list .int) = true ∧
    tyEq .int .float = false := by
  obtain ⟨hr, hs, ht, hk⟩ := tyEq_equivalence
  exact ⟨hr (.tuple [.int, .str]),
    ht (.list .int) (.list .int) (.list .int) (hr _) (hr _),
    hk .int .float (by decide)⟩

/-- Python values acceptable to `type_py_value` (`PyTypeable`):
booleans are included because `bool` is a subclass of `int` in Python, so a
boolean satisfies the `isinstance(v, int)` check. Float payloads are
irrelevant to typing and omitted. -/
inductive PyVal where
  | pyBool (b : Bool)
  | pyInt (n : Int)
  | pyFloat
  | pyStr (s : String)
  | pyTuple (fields : List PyVal)
  | pyList (elems : List PyVal)

/-- Exceptions `type_py_value` can raise: the explicit
`TypeError('Cannot type Python object ...')` of its final branch, and the
`IndexError` raised by the subscription `v[0]` on an empty list. -/
inductive PyErr where
  | typeError
  | indexError
deriving DecidableEq

mutual
/-- `type_py_value` of `typegraph/ty.py`, branch by branch:
`isinstance(v, int)` → `Int()` (this matches booleans first, since Python
`bool` is a subclass of `int`); `float` → `Float()`; `str` → `Str()`;
`tuple` → `Tuple(*(type_py_value(f) for f in v))`;
`list` → `List(type_py_value(v[0]))`, where `v[0]` raises `IndexError` on an
empty list and only the first element is inspected. -/
def type_py_value : PyVal → Except PyErr Ty
  | .pyBool _ => .ok .int
  | .pyInt _ => .ok .int
  | .pyFloat => .ok .float
  | .pyStr _ => .ok .str
  | .pyTuple fs => (typeFields fs).map Ty.tuple
  | .pyList es =>
    match es with
    | [] => .error .indexError
    | e :: _ => (type_py_value e).map Ty.list

/-- Left-to-right typing of tuple fields, propagating the first raised
exception (the generator argument of `Tuple(*)` is consumed in order). -/
def typeFields : List PyVal → Except PyErr (List Ty)
  | [] => .ok []
  | v :: vs => (type_py_value v).bind fun t => (typeFields vs).map fun ts => t :: ts
end

/-- Counterexample for claim C5: the heterogeneous list `[0, ""]` is typed
as `List(Int)` — a `Type` is returned, no `TypeError` is raised — and the
empty list raises `IndexError` (from the subscription `v[0]`), not the
`TypeError` the claim asserts. -/
theorem type_py_value_counterexample :
    type_py_value (.pyList [.pyInt 0, .pyStr ""]) = .ok (.list .int) ∧
    type_py_value (.pyList []) = .error .indexError ∧
    (Except.error PyErr.indexError : Except PyErr Ty) ≠ .error .typeError := by
  refine ⟨rfl, rfl, ?_⟩
  simp

/-- Claim C5 (amended): `type_py_value` maps native scalars to
`Int`/`Float`/`Str` and tuples to `Tuple` of the element types; a list is
typed as `List` of its FIRST element's type with no homogeneity check, so a
heterogeneous list yields a `Type` rather than an error, and the empty list
raises `IndexError` (from `v[0]`), not `TypeError`. -/
theorem type_py_value_behavior :
    (∀ n, type_py_value (.pyInt n) = .ok .int) ∧
    type_py_value .pyFloat = .ok .float ∧
    (∀ s, type_py_value (.pyStr s) = .ok .str) ∧
    (∀ fs, type_py_value (.pyTuple fs) = (typeFields fs).map Ty.tuple) ∧
    (∀ e es, type_py_value (.pyList (e :: es)) = (type_py_value e).map Ty.list) ∧
    type_py_value (.pyList []) = .error .indexError :=
  ⟨fun _ => rfl, rfl, fun _ => rfl, fun _ => rfl, fun _ _ => rfl, rfl⟩

/-- Claim C10: a Python boolean satisfies the `isinstance(v, int)` check —
`bool` is a subclass of `int` — which `type_py_value` tests first, so
booleans are typed as `Int()`, not rejected and not given a distinct type. -/
theorem type_py_value_bool_is_int :
    ∀ b, type_py_value (.pyBool b) = .ok .int :=
  fun _ => rfl

/-! ### The generation driver (`typefuzz_div.py`) -/

/-- Modelled from the spec: the operator set the driver builds with
`[OpRegistry.get(name) for name in muffin_ops]`; the `muffin_ops`
configuration list is outside src, so we take the operator names registered
by the operator modules of `typegraph/op`. -/
def muffinOps : List String := ["add", "less", "concatenate", "split"]

/-- The random source of `main`: `rng = Generator(PCG64(seed=options.seed))`
(typefuzz_div.py) — the generator state is fully determined by the `--seed`
argument. -/
def pcg64Init (seed : Nat) : Nat := seed % 2 ^ 64

/-- Modelled from the spec: one draw of the seeded random source. The PCG64
update function itself is numpy-external; determinism only requires a fixed
pure transition of the 64-bit state, embedded here as an LCG step. -/
def rngNext (s : Nat) : Nat × Nat :=
  let s2 := (6364136223846793005 * s + 1442695040888963407) % 2 ^ 64
  (s2, s2)

/-- Modelled from the spec: `GraphGenerator.generate` (§4.4) — a
deterministic function of the random-source state and the operator set only,
returning the generated graph (embedded as the sequence of sampled choices:
an operator index and an attribute draw) together with the advanced state;
every generated graph holds at least one operator instance. -/
def generate (ops : List String) (s : Nat) : List Nat × Nat :=
  let p1 := rngNext s
  let opIdx := p1.1 % max ops.length 1
  let p2 := rngNext p1.2
  ([opIdx, p2.1 % 7], p2.2)

theorem generate_fst_length (ops : List String) (s : Nat) :
    (generate ops s).1.length = 2 := rfl

/-- The generation loop of `main` (typefuzz_div.py): repeatedly generate a
graph, add its operation count to `opr_count`, and stop once
`opr_count >= opr_limit`. -/
def genLoop (ops : List String) (limit : Nat) (s : Nat) (count : Nat)
    (acc : List (List Nat)) : List (List Nat) :=
  let g := (generate ops s).1
  let s2 := (generate ops s).2
  if limit ≤ count + g.length then acc ++ [g]
  else genLoop ops limit s2 (count + g.length) (acc ++ [g])
termination_by limit - count
decreasing_by
  simp only [generate_fst_length] at *
  omega

/-- The observable outcome of one run of `main`: the sequence of generated
graphs and the name of the diversity record file (which embeds the
wall-clock timestamp `time.strftime(...)` — the only clock dependence of
`main`). -/
structure RunResult where
  graphs : List (List Nat)
  recordFile : String

/-- `main` of typefuzz_div.py: seed the random source from `--seed`, build
the operator set, run the generation loop until the operation limit, and
derive the record-file name from the wall clock. -/
def mainRun (seed : Nat) (limit : Nat) (clock : String) : RunResult :=
  { graphs := genLoop muffinOps limit (pcg64Init seed) 0 []
    recordFile := "out/typefuzz-" ++ clock ++ ".txt" }

/-- Claim C7: the generated graphs are a pure function of the seed, the
operation limit and the operator set: the wall clock (the only other input
of `main`, used only for the record-file name) does not influence them, so
two runs with the same seed and operator set produce identical graphs. -/
theorem generation_deterministic (seed limit : Nat) (c1 c2 : String) :
    (mainRun seed limit c1).graphs =
      genLoop muffinOps limit (pcg64Init seed) 0 [] ∧
    (mainRun seed limit c1).graphs = (mainRun seed limit c2).graphs :=
  ⟨rfl, rfl⟩

/-! ### The reduction driver (`reduce_case.py`) -/

/-- The error classifications of the debug collaborators:
`ErrorKind.COMPILE | RUN | COMPUTE`; a case directory contains a marker file
named after the kind. -/
inductive ErrorKind where
  | compile
  | run
  | compute
deriving DecidableEq

/-- Matching of the regex `opt_level=(\d)` at the head of a character list:
succeeds iff the literal `opt_level=` is followed by a digit, capturing that
single digit. -/
def matchOptHere : List Char → Option Nat
  | 'o' :: 'p' :: 't' :: '_' :: 'l' :: 'e' :: 'v' :: 'e' :: 'l' :: '=' :: c :: _ =>
    if c.isDigit then some (c.toNat - 48) else none
  | _ => none

/-- Scan for the first match of `opt_level=(\d)`, as
`next(level_matcher.finditer(opt_str))` does; `none` embeds the
`StopIteration` raised when the marker line holds no match. -/
def findOptLevelAux : List Char → Option Nat
  | [] => none
  | c :: rest =>
    match matchOptHere (c :: rest) with
    | some d => some d
    | none => findOptLevelAux rest

/-- `int(next(level_matcher.finditer(opt_str)).groups()[0])` of
`reduce_case.py` applied to the marker line. -/
def findOptLevel (s : String) : Option Nat :=
  findOptLevelAux s.data

/-- One failing-case directory as the driver reads it: the marker line
(`f.readline()` of `error.txt`), the remaining captured error text
(`f.read()`), the original source (`code.txt`), the presence of the three
kind marker files, and the optional archived named arrays. -/
structure CaseDir where
  optLine : String
  errRest : String
  code : String
  hasCompile : Bool
  hasRun : Bool
  hasCompute : Bool
  inputs : Option (List (String × List Int))
  params : Option (List (String × List Int))

/-- The kinds the driver's `for kind, reduce_cls in zip(...)` loop actually
processes for a case, in the fixed order COMPILE, RUN, COMPUTE (the loop
`continue`s when the marker file is absent). -/
def caseKinds (c : CaseDir) : List ErrorKind :=
  (if c.hasCompile then [.compile] else []) ++
    (if c.hasRun then [.run] else []) ++
      (if c.hasCompute then [.compute] else [])

/-- A reducer family, one delta-debugging reducer class per error kind
(`CompileReducer`, `RunReducer`, `ComputeReducer` — external collaborators):
given the source, the error text, the optimization level and the optional
inputs/parameters, it returns the minimized source and an extra-diagnostics
string. -/
def Reducer : Type :=
  ErrorKind → String → String → Nat →
    Option (List (String × List Int)) → Option (List (String × List Int)) →
      String × String

/-- The files `main` of `reduce_case.py` writes for one case (name, content):
per processed kind, `code-reduced.txt` always, then `extra.txt` iff
`len(extra) > 0`; `none` embeds the `StopIteration` crash when the marker
line has no `opt_level=` match (the level is parsed before the kind loop). -/
def processCase (red : Reducer) (c : CaseDir) : Option (List (String × String)) :=
  match findOptLevel c.optLine with
  | none => none
  | some lvl =>
    some ((caseKinds c).bind fun k =>
      let r := red k c.code c.errRest lvl c.inputs c.params
      [("code-reduced.txt", r.1)] ++
        (if r.2.length > 0 then [("extra.txt", r.2)] else []))

theorem string_length_pos_iff_ne_empty (s : String) : 0 < s.length ↔ s ≠ "" := by
  cases s with
  | mk data =>
    constructor
    · intro h he
      rw [he] at h
      simp at h
    · intro h
      rcases data with _ | ⟨c, cs⟩
      · exact absurd rfl h
      · simp [String.length]

/-- Claim C8: for every case the driver processes whose marker line parses,
the optimization level passed to every reducer is the one parsed from the
marker line; `code-reduced.txt` is written with the minimized source for
every processed kind; and `extra.txt` is written iff some processed kind's
reducer returned a non-empty extra string. -/
theorem reduce_case_writes (red : Reducer) (c : CaseDir) (lvl : Nat)
    (hopt : findOptLevel c.optLine = some lvl) :
    ∃ ws, processCase red c = some ws ∧
      (∀ k ∈ caseKinds c,
        ("code-reduced.txt", (red k c.code c.errRest lvl c.inputs c.params).1) ∈ ws) ∧
      ((∃ x, ("extra.txt", x) ∈ ws) ↔
        ∃ k ∈ caseKinds c,
          (red k c.code c.errRest lvl c.inputs c.params).2 ≠ "") := by
  have hne : ("extra.txt" : String) ≠ "code-reduced.txt" := by decide
  refine ⟨_, by unfold processCase; rw [hopt], ?_, ?_⟩
  · intro k hk
    rw [List.mem_bind]
    refine ⟨k, hk, ?_⟩
    simp only [List.mem_append, List.mem_singleton]
    left
    trivial
  · constructor
    · rintro ⟨x, hx⟩
      rw [List.mem_bind] at hx
      obtain ⟨k, hk, hmem⟩ := hx
      refine ⟨k, hk, ?_⟩
      simp only [List.mem_append, List.mem_singleton] at hmem
      rcases hmem with h1 | h2
      · exact absurd (congrArg Prod.fst h1) hne
      · by_cases hc : (red k c.code c.errRest lvl c.inputs c.params).2.length > 0
        · rw [if_pos hc] at h2
          exact (string_length_pos_iff_ne_empty _).mp hc
        · rw [if_neg hc] at h2
          cases h2
    · rintro ⟨k, hk, hx⟩
      refine ⟨(red k c.code c.errRest lvl c.inputs c.params).2, ?_⟩
      rw [List.mem_bind]
      refine ⟨k, hk, ?_⟩
      have hc : (red k c.code c.errRest lvl c.inputs c.params).2.length > 0 :=
        (string_length_pos_iff_ne_empty _).mpr hx
      simp only [List.mem_append, List.mem_singleton, if_pos hc]
      right
      trivial

/-- Witness for claim C8: a concrete case with the marker line
`opt_level=3`, only the RUN marker present, and a reducer returning the
minimized source `"x"` with non-empty extra diagnostics `"d"`. -/
theorem reduce_case_writes_witness :
    ∃ ws, processCase (fun _ _ _ _ _ _ => ("x", "d"))
        { optLine := "opt_level=3\n", errRest := "boom", code := "c",
          hasCompile := false, hasRun := true, hasCompute := false,
          inputs := none, params := none } = some ws ∧
      (∀ k ∈ caseKinds
          { optLine := "opt_level=3\n", errRest := "boom", code := "c",
            hasCompile := false, hasRun := true, hasCompute := false,
            inputs := none, params := none },
        (("code-reduced.txt" : String),
          ((fun (_ : ErrorKind) (_ _ : String) (_ : Nat)
              (_ _ : Option (List (String × List Int))) => (("x" : String), ("d" : String)))
            k "c" "boom" 3 none none).1) ∈ ws) ∧
      ((∃ x, (("extra.txt" : String), x) ∈ ws) ↔
        ∃ k ∈ caseKinds
            { optLine := "opt_level=3\n", errRest := "boom", code := "c",
              hasCompile := false, hasRun := true, hasCompute := false,
              inputs := none, params := none },
          ((fun (_ : ErrorKind) (_ _ : String) (_ : Nat)
              (_ _ : Option (List (String × List Int))) => (("x" : String), ("d" : String)))
            k "c" "boom" 3 none none).2 ≠ "") :=
  reduce_case_writes (fun _ _ _ _ _ _ => ("x", "d"))
    { optLine := "opt_level=3\n", errRest := "boom", code := "c",
      hasCompile := false, hasRun := true, hasCompute := false,
      inputs := none, params := none } 3 (by decide)

end GenCoG
